import Mathlib

/-!
Verification development for the NFS repository file
`src/models/baselines/attention/astgcn.py`.

The Python code is shallowly embedded over the real numbers: tensors become
functions out of `Fin` types, edge lists become `List (Fin N × Fin N)`, and
the torch / torch_geometric primitives the file calls (`remove_self_loops`,
`get_laplacian`, `add_self_loops`, `MessagePassing.propagate` with add
aggregation, `softmax`, `Conv2d`) are embedded from their documented
semantics, since the repository uses them as library black boxes.
Float arithmetic is modelled by exact real arithmetic; the one place where
IEEE infinities matter (the `masked_fill_` of `inf` after dividing by
`lambda_max`) additionally gets an exact extended-value model (`EFloat`)
capturing signed infinities and NaN.
-/

open scoped BigOperators

namespace NFS

/-- Edge list of a graph on `N` nodes: `edge_index` column `e` is the pair
`(source, target)`, i.e. `(edge_index[0][e], edge_index[1][e])`. -/
abbrev Edges (N : ℕ) := List (Fin N × Fin N)

/-- Laplacian normalization mode of `ChebConvAttention`: `nil` embeds the
Python `None`, `sym` embeds `'sym'`, `rw` embeds `'rw'`. -/
inductive Normalization where
  | nil
  | sym
  | rw
deriving DecidableEq

/-- torch_geometric.utils.remove_self_loops: drop every edge whose source
equals its target, keeping any aligned weight entries.  A `none` weight
argument (Python `None`) is passed through unchanged. -/
def remove_self_loops {N : ℕ} (ei : Edges N) (ew : Option (List ℝ)) :
    Edges N × Option (List ℝ) :=
  match ew with
  | none => (ei.filter (fun p => p.1 ≠ p.2), none)
  | some w =>
      let z := (ei.zip w).filter (fun p => p.1.1 ≠ p.1.2)
      (z.map Prod.fst, some (z.map Prod.snd))

/-- Row of self-loop edges `(i, i)` for every node, in node order: the
`loop_index` tensor built by torch_geometric's `add_self_loops`. -/
def loopEdges (N : ℕ) : Edges N := List.ofFn (fun i => (i, i))

/-- torch_geometric.utils.add_self_loops with an explicit `fill_value`:
appends a `(i, i)` edge for every node `i` at the end of the edge list and
appends `fill_value` for each of them at the end of the weight list.
Existing entries at diagonal positions are kept; nothing is replaced. -/
def add_self_loops {N : ℕ} (ei : Edges N) (ew : List ℝ) (fill : ℝ) :
    Edges N × List ℝ :=
  (ei ++ loopEdges N, ew ++ List.replicate N fill)

/-- Node degree: scatter-add of the edge weights over the source row, as
computed inside `get_laplacian`. -/
def degreeOf {N : ℕ} (ei : Edges N) (ew : List ℝ) (i : Fin N) : ℝ :=
  ((ei.zip ew).map (fun p => if p.1.1 = i then p.2 else 0)).sum

/-- Embedding of `deg.pow_(-0.5)` followed by
`masked_fill_(deg_inv_sqrt == inf, 0)`: over the reals,
`(Real.sqrt 0)⁻¹ = 0`, which reproduces the masking of the `+inf` produced
by a zero degree.  (A negative degree would give NaN in floats; `Real.sqrt`
maps it to `0`, the only point where this real model and float execution
part ways.) -/
noncomputable def invSqrtMasked (d : ℝ) : ℝ := (Real.sqrt d)⁻¹

/-- Embedding of `deg_inv = 1/deg` followed by the `inf` mask used in the
random-walk branch: real division by zero is `0`, matching the mask. -/
noncomputable def invMasked (d : ℝ) : ℝ := d⁻¹

/-- torch_geometric.utils.get_laplacian: removes self-loops, defaults the
weights to ones, computes degrees, and returns the Laplacian edge list for
the requested normalization:
`None`: `L = D - A`, weight list `[-w] ++ [deg i]` with appended loops;
`'sym'`: `L = I - D^(-1/2) A D^(-1/2)`, appended loops carry fill 1;
`'rw'`: `L = I - D^(-1) A`, appended loops carry fill 1. -/
noncomputable def get_laplacian {N : ℕ} (ei : Edges N) (ew : Option (List ℝ))
    (mode : Normalization) : Edges N × List ℝ :=
  let p := remove_self_loops ei ew
  let ei1 := p.1
  let w1 := p.2.getD (List.replicate ei1.length 1)
  let deg := fun i => degreeOf ei1 w1 i
  match mode with
  | Normalization.nil =>
      (ei1 ++ loopEdges N, w1.map (fun w => -w) ++ List.ofFn (fun i => deg i))
  | Normalization.sym =>
      let wn := (ei1.zip w1).map
        (fun p => invSqrtMasked (deg p.1.1) * p.2 * invSqrtMasked (deg p.1.2))
      add_self_loops ei1 (wn.map (fun w => -w)) 1
  | Normalization.rw =>
      let wn := (ei1.zip w1).map (fun p => invMasked (deg p.1.1) * p.2)
      add_self_loops ei1 (wn.map (fun w => -w)) 1

namespace ChebConvAttention

/-- Embedding of `ChebConvAttention.__norm__` (scalar `lambda_max`, the
`batch = None` path used by every call site in the repository): strip
self-loops, build the Laplacian, scale every weight by `2 / lambda_max`
(the `masked_fill_` of `+inf` is a no-op over the reals, where division by
zero already yields `0`; the `EFloat` model below covers the exact float
behaviour of that line), then append self-loops with fill `-1`. -/
noncomputable def normEdges {N : ℕ} (ei : Edges N) (ew : Option (List ℝ))
    (mode : Normalization) (lam : ℝ) : Edges N × List ℝ :=
  let p := remove_self_loops ei ew
  let q := get_laplacian p.1 p.2 mode
  let w3 := q.2.map (fun w => 2 * w / lam)
  add_self_loops q.1 w3 (-1)

end ChebConvAttention

/-- Extended value modelling one float cell: a finite rational, a signed
infinity, or NaN. -/
inductive EFloat where
  | fin (q : ℚ)
  | posInf
  | negInf
  | nan
deriving DecidableEq

/-- EFloat is finite exactly on the `fin` constructor. -/
def EFloat.isFinite : EFloat → Bool
  | EFloat.fin _ => true
  | _ => false

namespace ChebConvAttention

/-- Exact float model of the two lines
`edge_weight = (2.0 * edge_weight) / lambda_max` and
`edge_weight.masked_fill_(edge_weight == float('inf'), 0)` of `__norm__`,
applied to one edge: dividing a nonzero value by `lambda_max = 0` produces
a signed infinity and `0/0` produces NaN; the mask compares against `+inf`
only, so `-inf` and NaN pass through unchanged. -/
def scaleMaskE (w lam : ℚ) : EFloat :=
  let d : EFloat :=
    if lam ≠ 0 then EFloat.fin (2 * w / lam)
    else if 0 < 2 * w then EFloat.posInf
    else if 2 * w < 0 then EFloat.negInf
    else EFloat.nan
  if d = EFloat.posInf then EFloat.fin 0 else d

end ChebConvAttention

/-- Messages flow along the first components towards the second components:
`MessagePassing.propagate` with `aggr = 'add'` and the `message` function of
`ChebConvAttention` (`norm * x_j`), for an edge list `ei` and a per-edge,
per-batch weight `wt` (the 1-D branch of `message` is the special case of a
weight that does not depend on the batch index).  Output node `v` receives
`wt e b * x b (source e) f` summed over the edges `e` whose target is `v`. -/
noncomputable def propagate {B N F : ℕ} (ei : Edges N) (wt : ℕ → Fin B → ℝ)
    (x : Fin B → Fin N → Fin F → ℝ) : Fin B → Fin N → Fin F → ℝ :=
  fun b v f => ∑ e in Finset.range ei.length,
    (ei[e]?).elim 0 (fun pr => if pr.2 = v then wt e b * x b pr.1 f else 0)

/-- Embedding of `edge_index_transpose = edge_index[[1, 0]]`: swap the two
rows of the edge list. -/
def transposeEdges {N : ℕ} (ei : Edges N) : Edges N := ei.map Prod.swap

/-- Embedding of
`torch.matmul((torch.eye(num_nodes) * spatial_attention).permute(0,2,1), x)`,
the order-0 term `TAx_0`: mask the attention matrix to its diagonal with an
identity matrix, transpose the last two axes, and matrix-multiply with `x`. -/
noncomputable def attDiagTerm {B N F : ℕ} (sa : Fin B → Fin N → Fin N → ℝ)
    (x : Fin B → Fin N → Fin F → ℝ) : Fin B → Fin N → Fin F → ℝ :=
  fun b v f => ∑ u, ((if u = v then (1 : ℝ) else 0) * sa b u v) * x b u f

/-- Batched matrix product with a weight slice:
`torch.matmul(T, W[k])` for `T` of shape `(B, N, F_in)`. -/
noncomputable def matW {B N Fi Fo : ℕ} (t : Fin B → Fin N → Fin Fi → ℝ)
    (w : Fin Fi → Fin Fo → ℝ) : Fin B → Fin N → Fin Fo → ℝ :=
  fun b v o => ∑ f, t b v f * w f o

/-- Value added by the optional bias: the bias entry when present, `0` when
the parameter is `None` (so that adding it is the identity). -/
def biasOut {Fo : ℕ} (bias : Option (Fin Fo → ℝ)) (o : Fin Fo) : ℝ :=
  match bias with
  | some bb => bb o
  | none => 0

namespace ChebConvAttention

/-- Embedding of `Att_norm = norm * spatial_attention[:, row, col]`: the
edge-indexed attention-reweighted weights, where `row`/`col` are the source
and target rows of the normalized edge list. -/
noncomputable def attNormOf {B N : ℕ} (sa : Fin B → Fin N → Fin N → ℝ)
    (ei : Edges N) (nw : List ℝ) : ℕ → Fin B → ℝ :=
  fun e b => (ei[e]?).elim 0 (fun pr => nw.getD e 0 * sa b pr.1 pr.2)

/-- Broadcast of the plain 1-D normalized weight list over the batch axis,
the `norm.view(-1, 1) * x_j` branch of `message`. -/
def nwOf {B : ℕ} (nw : List ℝ) : ℕ → Fin B → ℝ := fun e _ => nw.getD e 0

/-- State threaded through the Chebyshev loop of `forward`: the running
pair `(TAx_0, TAx_1)` and the accumulator `out`. -/
abbrev ChebState (B N Fi Fo : ℕ) :=
  (Fin B → Fin N → Fin Fi → ℝ) × (Fin B → Fin N → Fin Fi → ℝ) ×
    (Fin B → Fin N → Fin Fo → ℝ)

/-- One iteration of the loop `for k in range(2, K)` of `forward`:
`TAx_2 = 2 * propagate(edge_index_transpose, TAx_1, norm) - TAx_0`,
`out = out + TAx_2 @ W[k]`, then roll the pair. -/
noncomputable def chebStep {B N Fi Fo : ℕ} (eiT : Edges N)
    (nwB : ℕ → Fin B → ℝ) (W : ℕ → Fin Fi → Fin Fo → ℝ)
    (s : ChebState B N Fi Fo) (k : ℕ) : ChebState B N Fi Fo :=
  let T2 : Fin B → Fin N → Fin Fi → ℝ :=
    fun b v f => 2 * propagate eiT nwB s.2.1 b v f - s.1 b v f
  (s.2.1, T2, fun b v o => s.2.2 b v o + matW T2 (W k) b v o)

/-- Embedding of the body of `ChebConvAttention.forward` after the
`lambda_max` checks (scalar `lambda_max`, `batch = None`): normalize the
Laplacian, build `Att_norm`, take `TAx_0` through the diagonal-masked
attention, then run the Chebyshev recursion over the transposed edge list,
using `Att_norm` for the order-1 propagation and the plain `norm` weights
inside the loop; finally add the bias when present.  `K` is
`self._weight.size(0)` and `W k` is the slice `self._weight[k]`. -/
noncomputable def forwardCore {B N Fi Fo : ℕ} (K : ℕ)
    (W : ℕ → Fin Fi → Fin Fo → ℝ) (bias : Option (Fin Fo → ℝ))
    (mode : Normalization) (x : Fin B → Fin N → Fin Fi → ℝ) (ei : Edges N)
    (sa : Fin B → Fin N → Fin N → ℝ) (ew : Option (List ℝ)) (lam : ℝ) :
    Fin B → Fin N → Fin Fo → ℝ :=
  let p := normEdges ei ew mode lam
  let attNorm := attNormOf sa p.1 p.2
  let T0 := attDiagTerm sa x
  let out0 := matW T0 (W 0)
  let eiT := transposeEdges p.1
  if K ≤ 1 then fun b v o => out0 b v o + biasOut bias o
  else
    let T1 := propagate eiT attNorm T0
    let out1 := fun b v o => out0 b v o + matW T1 (W 1) b v o
    let s := (List.range' 2 (K - 2)).foldl
      (chebStep eiT (nwOf p.2) W) (T0, T1, out1)
    fun b v o => s.2.2 b v o + biasOut bias o

/-- Embedding of `ChebConvAttention.forward` including its argument check:
a missing `lambda_max` under a non-symmetric normalization raises
`ValueError` before any computation; otherwise `lambda_max` defaults to
`2.0` and the body runs. -/
noncomputable def forward {B N Fi Fo : ℕ} (K : ℕ)
    (W : ℕ → Fin Fi → Fin Fo → ℝ) (bias : Option (Fin Fo → ℝ))
    (mode : Normalization) (x : Fin B → Fin N → Fin Fi → ℝ) (ei : Edges N)
    (sa : Fin B → Fin N → Fin N → ℝ) (ew : Option (List ℝ))
    (lam : Option ℝ) : Except String (Fin B → Fin N → Fin Fo → ℝ) :=
  if mode ≠ Normalization.sym ∧ lam = none then
    Except.error
      "You need to pass lambda_max to forward() in case the normalization is non-symmetric."
  else
    Except.ok (forwardCore K W bias mode x ei sa ew (lam.getD 2))

/-- Chebyshev terms as the specification states them, by structural
recursion: `T_0` is the diagonal-gated order-0 term, `T_1` propagates `T_0`
over the reversed edges with the attention-reweighted weights, and
`T_(k+2) = 2 * P - T_k` where `P` propagates `T_(k+1)` over the reversed
edges with the plain normalized weights. -/
noncomputable def chebTerm {B N F : ℕ} (eiT : Edges N)
    (attW nwB : ℕ → Fin B → ℝ) (T0 : Fin B → Fin N → Fin F → ℝ) :
    ℕ → Fin B → Fin N → Fin F → ℝ
  | 0 => T0
  | 1 => propagate eiT attW T0
  | (k + 2) => fun b v f =>
      2 * propagate eiT nwB (chebTerm eiT attW nwB T0 (k + 1)) b v f -
        chebTerm eiT attW nwB T0 k b v f

/-- Chebyshev term `k` of a `forward` call, with the edge list, the plain
weights and the attention-reweighted weights all derived from `__norm__`
exactly as `forward` derives them. -/
noncomputable def chebTermAt {B N Fi : ℕ} (mode : Normalization)
    (x : Fin B → Fin N → Fin Fi → ℝ) (ei : Edges N)
    (sa : Fin B → Fin N → Fin N → ℝ) (ew : Option (List ℝ)) (lam : ℝ)
    (k : ℕ) : Fin B → Fin N → Fin Fi → ℝ :=
  let p := normEdges ei ew mode lam
  chebTerm (transposeEdges p.1) (attNormOf sa p.1 p.2) (nwOf p.2)
    (attDiagTerm sa x) k

/-- One loop iteration starting from consecutive Chebyshev terms produces
the next pair of consecutive terms and adds the matching summand. -/
lemma chebStep_spec {B N Fi Fo : ℕ} (eiT : Edges N) (attW nwB : ℕ → Fin B → ℝ)
    (T0b : Fin B → Fin N → Fin Fi → ℝ) (W : ℕ → Fin Fi → Fin Fo → ℝ)
    (j : ℕ) (out : Fin B → Fin N → Fin Fo → ℝ) :
    chebStep eiT nwB W
      (chebTerm eiT attW nwB T0b j, chebTerm eiT attW nwB T0b (j + 1), out)
      (j + 2) =
    (chebTerm eiT attW nwB T0b (j + 1), chebTerm eiT attW nwB T0b (j + 2),
      fun b v o => out b v o +
        matW (chebTerm eiT attW nwB T0b (j + 2)) (W (j + 2)) b v o) := rfl

/-- Folding the loop body over `range(j+2, j+2+m)` starting from the terms
`T_j, T_(j+1)` yields `T_(j+m), T_(j+m+1)` and accumulates the summands of
orders `j+2 .. j+m+1`. -/
lemma cheb_foldl {B N Fi Fo : ℕ} (eiT : Edges N) (attW nwB : ℕ → Fin B → ℝ)
    (T0b : Fin B → Fin N → Fin Fi → ℝ) (W : ℕ → Fin Fi → Fin Fo → ℝ) :
    ∀ (m j : ℕ) (out : Fin B → Fin N → Fin Fo → ℝ),
    (List.range' (j + 2) m).foldl (chebStep eiT nwB W)
        (chebTerm eiT attW nwB T0b j, chebTerm eiT attW nwB T0b (j + 1), out)
      = (chebTerm eiT attW nwB T0b (j + m),
         chebTerm eiT attW nwB T0b (j + m + 1),
         fun b v o => out b v o + ∑ i in Finset.range m,
           matW (chebTerm eiT attW nwB T0b (j + 2 + i)) (W (j + 2 + i)) b v o) := by
  intro m
  induction m with
  | zero =>
      intro j out
      simp only [List.range', List.foldl_nil, Finset.range_zero,
        Finset.sum_empty, add_zero, Nat.add_zero]
  | succ m ih =>
      intro j out
      have hstep := chebStep_spec eiT attW nwB T0b W j out
      have hcons : List.range' (j + 2) (m + 1) =
          (j + 2) :: List.range' (j + 3) m := rfl
      rw [hcons, List.foldl_cons, hstep]
      have := ih (j + 1)
        (fun b v o => out b v o +
          matW (chebTerm eiT attW nwB T0b (j + 2)) (W (j + 2)) b v o)
      have harg : j + 1 + 2 = j + 3 := by omega
      have harg2 : j + 1 + 1 = j + 2 := by omega
      rw [harg, harg2] at this
      rw [this]
      have h1 : j + 1 + m = j + (m + 1) := by omega
      rw [h1]
      simp only [Prod.mk.injEq]
      refine ⟨trivial, trivial, ?_⟩
      funext b v o
      rw [Finset.sum_range_succ']
      have h3 : ∀ i : ℕ, j + 2 + (i + 1) = j + 3 + i := by omega
      simp only [h3, add_zero]
      ring

/-- Characterization of `forward`'s body for every positive filter order:
the output is the sum over `k < K` of `T_k @ W[k]` plus the bias, with the
Chebyshev terms generated by the claimed recursion (attention-reweighted
propagation for `T_1`, plain normalized weights inside the loop). -/
lemma forwardCore_eq_sum {B N Fi Fo : ℕ} (K' : ℕ)
    (W : ℕ → Fin Fi → Fin Fo → ℝ) (bias : Option (Fin Fo → ℝ))
    (mode : Normalization) (x : Fin B → Fin N → Fin Fi → ℝ) (ei : Edges N)
    (sa : Fin B → Fin N → Fin N → ℝ) (ew : Option (List ℝ)) (lam : ℝ) :
    forwardCore (K' + 1) W bias mode x ei sa ew lam
      = fun b v o =>
        (∑ k in Finset.range (K' + 1),
          matW (chebTermAt mode x ei sa ew lam k) (W k) b v o) +
        biasOut bias o := by
  cases K' with
  | zero =>
      funext b v o
      simp [forwardCore, chebTermAt, chebTerm, Finset.sum_range_one]
  | succ m =>
      have hK : ¬ (m + 2 ≤ 1) := by omega
      funext b v o
      simp only [forwardCore, if_neg hK]
      have hmm : m + 2 - 2 = m := by omega
      rw [hmm]
      have hfold := cheb_foldl (transposeEdges (normEdges ei ew mode lam).1)
        (attNormOf sa (normEdges ei ew mode lam).1 (normEdges ei ew mode lam).2)
        (nwOf (normEdges ei ew mode lam).2) (attDiagTerm sa x) W m 0
        (fun b v o =>
          matW (attDiagTerm sa x) (W 0) b v o +
          matW (propagate (transposeEdges (normEdges ei ew mode lam).1)
            (attNormOf sa (normEdges ei ew mode lam).1 (normEdges ei ew mode lam).2)
            (attDiagTerm sa x)) (W 1) b v o)
      simp only [Nat.zero_add, chebTerm] at hfold
      have h3rd := congrArg
        (fun t : ChebState B N Fi Fo => t.2.2 b v o) hfold
      simp only at h3rd
      rw [h3rd]
      simp only [chebTermAt]
      rw [Finset.sum_range_succ', Finset.sum_range_succ']
      have h3 : ∀ i : ℕ, 2 + i = i + 1 + 1 := by omega
      have e0 : chebTerm (transposeEdges (normEdges ei ew mode lam).1)
          (attNormOf sa (normEdges ei ew mode lam).1 (normEdges ei ew mode lam).2)
          (nwOf (normEdges ei ew mode lam).2) (attDiagTerm sa x) 0
          = attDiagTerm sa x := rfl
      have e1 : chebTerm (transposeEdges (normEdges ei ew mode lam).1)
          (attNormOf sa (normEdges ei ew mode lam).1 (normEdges ei ew mode lam).2)
          (nwOf (normEdges ei ew mode lam).2) (attDiagTerm sa x) 1
          = propagate (transposeEdges (normEdges ei ew mode lam).1)
              (attNormOf sa (normEdges ei ew mode lam).1 (normEdges ei ew mode lam).2)
              (attDiagTerm sa x) := rfl
      simp only [h3, Nat.zero_add, e0, e1]
      ring

end ChebConvAttention

/-- Unfolding the diagonal-masked attention term: masking the attention
matrix with the identity and transposing reduces it to the per-node gate
`spatial_attention[b, v, v]`. -/
lemma attDiagTerm_eq_gate {B N F : ℕ} (sa : Fin B → Fin N → Fin N → ℝ)
    (x : Fin B → Fin N → Fin F → ℝ) :
    attDiagTerm sa x = fun b v f => sa b v v * x b v f := by
  funext b v f
  simp only [attDiagTerm, ite_mul, one_mul, zero_mul]
  rw [Finset.sum_ite_eq' Finset.univ v (fun u => sa b u v * x b u f)]
  simp

/-- C1: for every forward call of ChebConvAttention with filter order
`K >= 2`, `T_1` is obtained by propagating `T_0` over the reversed edges
with the attention-reweighted weights `Att_norm`, every further term by
propagating the previous one over the reversed edges with the plain
normalized weights and applying `T_k = 2 P - T_(k-2)`, and the output is
the sum over `k` of `T_k @ W[k]` plus the bias when present; `chebTermAt`
is exactly this recursion. -/
theorem claim1_cheb_recursion {B N Fi Fo : ℕ} (K' : ℕ)
    (W : ℕ → Fin Fi → Fin Fo → ℝ) (bias : Option (Fin Fo → ℝ))
    (mode : Normalization) (x : Fin B → Fin N → Fin Fi → ℝ) (ei : Edges N)
    (sa : Fin B → Fin N → Fin N → ℝ) (ew : Option (List ℝ)) (lam : ℝ) :
    ChebConvAttention.forwardCore (K' + 1 + 1) W bias mode x ei sa ew lam
      = fun b v o =>
        (∑ k in Finset.range (K' + 1 + 1),
          matW (ChebConvAttention.chebTermAt mode x ei sa ew lam k) (W k) b v o) +
        biasOut bias o :=
  ChebConvAttention.forwardCore_eq_sum (K' + 1) W bias mode x ei sa ew lam

/-- C8: widening the filter order from `K = K'+1` to `K+1` while zeroing
the added weight slice `W[K]` (and keeping slices `0..K-1` and the bias)
leaves the output of the convolution unchanged, for every input. -/
theorem claim8_zero_extra_slice {B N Fi Fo : ℕ} (K' : ℕ)
    (W : ℕ → Fin Fi → Fin Fo → ℝ) (bias : Option (Fin Fo → ℝ))
    (mode : Normalization) (x : Fin B → Fin N → Fin Fi → ℝ) (ei : Edges N)
    (sa : Fin B → Fin N → Fin N → ℝ) (ew : Option (List ℝ)) (lam : ℝ) :
    ChebConvAttention.forwardCore (K' + 1 + 1)
        (Function.update W (K' + 1) (fun _ _ => 0)) bias mode x ei sa ew lam
      = ChebConvAttention.forwardCore (K' + 1) W bias mode x ei sa ew lam := by
  rw [ChebConvAttention.forwardCore_eq_sum (K' + 1),
    ChebConvAttention.forwardCore_eq_sum K']
  funext b v o
  rw [Finset.sum_range_succ]
  rw [Function.update_same]
  have hz : matW (ChebConvAttention.chebTermAt mode x ei sa ew lam (K' + 1))
      (fun _ _ => (0 : ℝ)) b v o = 0 := by simp [matW]
  rw [hz, add_zero]
  refine congrArg (fun z => z + biasOut bias o) ?_
  refine Finset.sum_congr rfl ?_
  intro k hk
  have hklt : k < K' + 1 := Finset.mem_range.mp hk
  rw [Function.update_noteq (by omega)]

/-- C3: with filter order `K = 1` the convolution returns the per-node
attention-diagonal-gated linear projection
`out[b, v, o] = sum_f sa[b, v, v] * x[b, v, f] * W[0][f, o]` plus the bias,
and the output is independent of the edge list, the edge weights and
`lambda_max`. -/
theorem claim3_order_zero_gate {B N Fi Fo : ℕ}
    (W : ℕ → Fin Fi → Fin Fo → ℝ) (bias : Option (Fin Fo → ℝ))
    (mode : Normalization) (x : Fin B → Fin N → Fin Fi → ℝ)
    (sa : Fin B → Fin N → Fin N → ℝ) :
    (∀ (ei : Edges N) (ew : Option (List ℝ)) (lam : ℝ),
      ChebConvAttention.forwardCore 1 W bias mode x ei sa ew lam
        = fun b v o =>
          (∑ f, sa b v v * x b v f * W 0 f o) + biasOut bias o) ∧
    (∀ (ei eiAlt : Edges N) (ew ewAlt : Option (List ℝ)) (lam lamAlt : ℝ),
      ChebConvAttention.forwardCore 1 W bias mode x ei sa ew lam
        = ChebConvAttention.forwardCore 1 W bias mode x eiAlt sa ewAlt lamAlt) := by
  have hmain : ∀ (ei : Edges N) (ew : Option (List ℝ)) (lam : ℝ),
      ChebConvAttention.forwardCore 1 W bias mode x ei sa ew lam
        = fun b v o =>
          (∑ f, sa b v v * x b v f * W 0 f o) + biasOut bias o := by
    intro ei ew lam
    funext b v o
    simp only [ChebConvAttention.forwardCore, Nat.le_refl, if_pos]
    rw [attDiagTerm_eq_gate]
    simp [matW]
  refine ⟨hmain, ?_⟩
  intro ei eiAlt ew ewAlt lam lamAlt
  rw [hmain ei ew lam, hmain eiAlt ewAlt lamAlt]

/-- Effective weight of a position `(i, j)` in a weighted edge list: the
sum of the weight entries of all edges sitting at that position.  This is
the coefficient that any add-aggregated propagation applies between the
two nodes, so duplicate entries accumulate (see
`propagate_eq_effectiveWeight`). -/
noncomputable def effectiveWeight {N : ℕ} (p : Edges N × List ℝ) (i j : Fin N) : ℝ :=
  ∑ e in Finset.range p.1.length,
    (p.1[e]?).elim 0 (fun pr => if pr = (i, j) then p.2.getD e 0 else 0)

/-- Propagation with the broadcast 1-D weights applies exactly the
effective weights: entries occupying the same position accumulate. -/
lemma propagate_eq_effectiveWeight {B N F : ℕ} (ei : Edges N) (nw : List ℝ)
    (x : Fin B → Fin N → Fin F → ℝ) (b : Fin B) (v : Fin N) (f : Fin F) :
    propagate ei (ChebConvAttention.nwOf nw) x b v f
      = ∑ u, effectiveWeight (ei, nw) u v * x b u f := by
  classical
  simp only [propagate, ChebConvAttention.nwOf, effectiveWeight, Finset.sum_mul]
  rw [Finset.sum_comm]
  refine Finset.sum_congr rfl ?_
  intro e _
  cases h : ei[e]? with
  | none => simp [h]
  | some pr =>
      obtain ⟨p1, p2⟩ := pr
      by_cases hv : p2 = v
      · simp only [h, Option.elim, hv, if_pos, Prod.mk.injEq, and_true, ite_mul,
          zero_mul]
        rw [Finset.sum_ite_eq Finset.univ p1
          (fun u => nw.getD e 0 * x b u f)]
        simp
      · simp [h, Option.elim, hv]

/-- Appending edge lists splits the effective weight additively, provided
the first weight segment covers exactly the first edge segment. -/
lemma effectiveWeight_append {N : ℕ} (E1 E2 : Edges N) (w1 w2 : List ℝ)
    (h : w1.length = E1.length) (i j : Fin N) :
    effectiveWeight (E1 ++ E2, w1 ++ w2) i j
      = effectiveWeight (E1, w1) i j + effectiveWeight (E2, w2) i j := by
  simp only [effectiveWeight, List.length_append]
  rw [Finset.sum_range_add]
  congr 1
  · refine Finset.sum_congr rfl ?_
    intro e he
    have hlt : e < E1.length := Finset.mem_range.mp he
    rw [List.getElem?_append_left hlt]
    have hw : (w1 ++ w2).getD e 0 = w1.getD e 0 := by
      simp only [List.getD_eq_getElem?_getD]
      rw [List.getElem?_append_left (by omega)]
    rw [hw]
  · refine Finset.sum_congr rfl ?_
    intro e _
    have h1 : (E1 ++ E2)[E1.length + e]? = E2[e]? := by
      rw [List.getElem?_append_right (by omega)]
      congr 1
      omega
    have h2 : (w1 ++ w2).getD (E1.length + e) 0 = w2.getD e 0 := by
      simp only [List.getD_eq_getElem?_getD]
      rw [List.getElem?_append_right (by omega)]
      have : E1.length + e - w1.length = e := by omega
      rw [this]
    rw [h1, h2]

/-- A list of edges that never sits on the diagonal contributes nothing to
any diagonal position. -/
lemma effectiveWeight_diag_zero {N : ℕ} (E : Edges N) (w : List ℝ)
    (h : ∀ p ∈ E, p.1 ≠ p.2) (i : Fin N) :
    effectiveWeight (E, w) i i = 0 := by
  simp only [effectiveWeight]
  refine Finset.sum_eq_zero ?_
  intro e he
  have hlt : e < E.length := Finset.mem_range.mp he
  rw [List.getElem?_eq_getElem hlt]
  simp only [Option.elim]
  rw [if_neg]
  intro hc
  exact h (E[e]) (List.getElem_mem hlt) (by rw [hc])

/-- The appended self-loop block carries weight `c` at every diagonal
position. -/
lemma effectiveWeight_loops {N : ℕ} (c : ℝ) (i : Fin N) :
    effectiveWeight (loopEdges N, List.replicate N c) i i = c := by
  simp only [effectiveWeight, loopEdges, List.length_ofFn]
  have hcong : ∀ e ∈ Finset.range N,
      ((List.ofFn (fun k : Fin N => (k, k)))[e]?).elim 0
        (fun pr => if pr = (i, i) then (List.replicate N c).getD e 0 else 0)
      = if e = i.val then c else 0 := by
    intro e he
    have hlt : e < N := Finset.mem_range.mp he
    have hbound : e < (List.ofFn (fun k : Fin N => (k, k))).length := by
      simpa using hlt
    rw [List.getElem?_eq_getElem hbound]
    simp only [List.getElem_ofFn, Option.elim, Prod.mk.injEq, and_self,
      List.getD_eq_getElem?_getD, List.getElem?_replicate_of_lt hlt,
      Option.getD_some, Fin.ext_iff]
  rw [Finset.sum_congr rfl hcong]
  rw [Finset.sum_ite_eq' (Finset.range N) i.val (fun _ => c)]
  simp [i.isLt]

/-- Filtering self-loops really removes every diagonal edge. -/
lemma remove_self_loops_no_self {N : ℕ} (ei : Edges N) (ew : Option (List ℝ)) :
    ∀ p ∈ (remove_self_loops ei ew).1, p.1 ≠ p.2 := by
  intro p hp
  cases ew with
  | none =>
      simp only [remove_self_loops, List.mem_filter, decide_eq_true_eq] at hp
      exact hp.2
  | some w =>
      simp only [remove_self_loops, List.mem_map, List.mem_filter,
        decide_eq_true_eq] at hp
      obtain ⟨q, ⟨_, hq⟩, rfl⟩ := hp
      exact hq

/-- The materialized weight list inside `get_laplacian` always covers the
filtered edge list. -/
lemma remove_self_loops_weight_length {N : ℕ} (ei : Edges N)
    (ew : Option (List ℝ)) :
    ((remove_self_loops ei ew).2.getD
        (List.replicate (remove_self_loops ei ew).1.length 1)).length
      = (remove_self_loops ei ew).1.length := by
  cases ew <;> simp [remove_self_loops]

/-- Symmetric-mode `__norm__` output decomposes into the off-diagonal
Laplacian block, the `get_laplacian` self-loop block scaled to
`2 * 1 / lambda_max`, and the appended self-loop block of weight `-1`. -/
lemma normEdges_sym_decomp {N : ℕ} (ei : Edges N) (ew : Option (List ℝ))
    (lam : ℝ) :
    ∃ (E1 : Edges N) (w1 : List ℝ),
      ChebConvAttention.normEdges ei ew Normalization.sym lam
        = ((E1 ++ loopEdges N) ++ loopEdges N,
            (w1 ++ List.replicate N (2 * 1 / lam)) ++ List.replicate N (-1)) ∧
      w1.length = E1.length ∧ (∀ p ∈ E1, p.1 ≠ p.2) := by
  have hnoself := remove_self_loops_no_self (remove_self_loops ei ew).1
    (remove_self_loops ei ew).2
  have hwlen := remove_self_loops_weight_length (remove_self_loops ei ew).1
    (remove_self_loops ei ew).2
  rcases hq : remove_self_loops (remove_self_loops ei ew).1
      (remove_self_loops ei ew).2 with ⟨e1, w1opt⟩
  rw [hq] at hnoself hwlen
  simp only at hnoself hwlen
  refine ⟨e1,
    (((e1.zip (w1opt.getD (List.replicate e1.length 1))).map
        (fun p => invSqrtMasked (degreeOf e1 (w1opt.getD (List.replicate e1.length 1)) p.1.1) * p.2 *
          invSqrtMasked (degreeOf e1 (w1opt.getD (List.replicate e1.length 1)) p.1.2))).map
      (fun w => -w)).map (fun w => 2 * w / lam), ?_, ?_, hnoself⟩
  · simp only [ChebConvAttention.normEdges, get_laplacian, hq, add_self_loops,
      List.map_append, List.map_replicate]
  · simp only [List.length_map, List.length_zip, hwlen, Nat.min_self]

/-- C2 (counterexample): on the one-node graph with no edges, symmetric
normalization and the default `lambda_max = 2`, the effective weight of the
self-loop position `(0, 0)` after `__norm__` is `0`, not `-1`: the
appended `-1` self-loop accumulates with the scaled Laplacian diagonal
entry `2/lambda_max = 1` instead of replacing it. -/
theorem claim2_counterexample :
    effectiveWeight
        (ChebConvAttention.normEdges ([] : Edges 1) none Normalization.sym 2)
        0 0 = 0 ∧
    effectiveWeight
        (ChebConvAttention.normEdges ([] : Edges 1) none Normalization.sym 2)
        0 0 ≠ -1 := by
  have h : effectiveWeight
      (ChebConvAttention.normEdges ([] : Edges 1) none Normalization.sym 2)
      0 0 = 0 := by
    simp only [ChebConvAttention.normEdges, remove_self_loops, get_laplacian,
      add_self_loops, loopEdges, effectiveWeight]
    norm_num [List.ofFn, Fin.foldr, Fin.foldr.loop, Finset.sum_range_succ]
  exact ⟨h, by rw [h]; norm_num⟩

/-- C2 (amended): for every graph, every optional edge weights and every
`lambda_max`, the symmetric-mode `__norm__` leaves TWO entries at each
self-loop position: the scaled Laplacian diagonal `2 * 1 / lambda_max` and
the appended `-1`; under add-aggregation the effective self-loop weight is
`2 * 1 / lambda_max - 1` (`0` at the default `lambda_max = 2`), not `-1`:
self-loop insertion accumulates instead of overriding. -/
theorem claim2_amended_self_loop_accumulation {N : ℕ} (ei : Edges N)
    (ew : Option (List ℝ)) (lam : ℝ) (i : Fin N) :
    effectiveWeight (ChebConvAttention.normEdges ei ew Normalization.sym lam)
        i i = 2 * 1 / lam - 1 := by
  obtain ⟨E1, w1, heq, hlen, hns⟩ := normEdges_sym_decomp ei ew lam
  rw [heq]
  rw [effectiveWeight_append _ _ _ _ (by simp [hlen, loopEdges])]
  rw [effectiveWeight_append _ _ _ _ hlen]
  rw [effectiveWeight_diag_zero E1 w1 hns, effectiveWeight_loops,
    effectiveWeight_loops]
  ring

/-- C4 (counterexample): on the two-node graph with the symmetric edges
`(0,1)` and `(1,0)` of weight `1`, the symmetric Laplacian carries weight
`-1` on the edge `(0,1)`; scaling it with `lambda_max = 0` produces
`-infinity`, which the mask (comparing against `+infinity` only) does NOT
clamp, so the resulting weight is neither finite nor zero. -/
theorem claim4_counterexample :
    ((get_laplacian ([((0 : Fin 2), (1 : Fin 2)), (1, 0)] : Edges 2)
        (some [1, 1]) Normalization.sym).2.getD 0 0 = (-1 : ℝ)) ∧
    ChebConvAttention.scaleMaskE (-1) 0 = EFloat.negInf ∧
    (ChebConvAttention.scaleMaskE (-1) 0).isFinite = false := by
  refine ⟨?_, ?_, ?_⟩
  · simp only [get_laplacian, remove_self_loops, degreeOf, invSqrtMasked]
    norm_num [add_self_loops, Real.sqrt_one]
  · norm_num [ChebConvAttention.scaleMaskE]
    decide
  · norm_num [ChebConvAttention.scaleMaskE, EFloat.isFinite]
    decide

/-- C4 (amended): with `lambda_max = 0`, the scaled-and-masked edge weight
is `0` exactly when the Laplacian edge weight is positive (its `+infinity`
is masked); a negative weight yields `-infinity` (not masked) and a zero
weight yields NaN, so the output is not always finite. -/
theorem claim4_amended_infinity_masking (w : ℚ) :
    ChebConvAttention.scaleMaskE w 0 =
      (if 0 < w then EFloat.fin 0
       else if w < 0 then EFloat.negInf else EFloat.nan) := by
  rcases lt_trichotomy w 0 with h | h | h
  · have h1 : ¬ (0 < w) := by linarith
    have h2 : ¬ (0 < 2 * w) := by linarith
    have h3 : 2 * w < 0 := by linarith
    simp [ChebConvAttention.scaleMaskE, h, h1, h2, h3]
  · subst h
    simp [ChebConvAttention.scaleMaskE]
  · have h2 : 0 < 2 * w := by linarith
    simp [ChebConvAttention.scaleMaskE, h, h2]

/-- C7: omitting `lambda_max` raises the missing-argument `ValueError` for
both non-symmetric normalization modes (`None` and random-walk), before
any output is produced, while the symmetric mode succeeds and defaults
`lambda_max` to `2.0`. -/
theorem claim7_lambda_max_check {B N Fi Fo : ℕ} (K : ℕ)
    (W : ℕ → Fin Fi → Fin Fo → ℝ) (bias : Option (Fin Fo → ℝ))
    (x : Fin B → Fin N → Fin Fi → ℝ) (ei : Edges N)
    (sa : Fin B → Fin N → Fin N → ℝ) (ew : Option (List ℝ)) :
    ChebConvAttention.forward K W bias Normalization.nil x ei sa ew none
      = Except.error
        "You need to pass lambda_max to forward() in case the normalization is non-symmetric." ∧
    ChebConvAttention.forward K W bias Normalization.rw x ei sa ew none
      = Except.error
        "You need to pass lambda_max to forward() in case the normalization is non-symmetric." ∧
    ChebConvAttention.forward K W bias Normalization.sym x ei sa ew none
      = Except.ok
        (ChebConvAttention.forwardCore K W bias Normalization.sym x ei sa ew 2) := by
  refine ⟨?_, ?_, ?_⟩ <;> simp [ChebConvAttention.forward, Option.getD]

/-- C9: on a graph with zero edges and filter order `K = 1`, the forward
call succeeds (also through the Laplacian normalization, whatever the
normalization mode, as long as the `lambda_max` check passes) and returns
exactly the order-0 term `(I * sa)^T x W[0]` plus the bias, i.e. the
per-node diagonal gate. -/
theorem claim9_empty_graph_k1 {B N Fi Fo : ℕ}
    (W : ℕ → Fin Fi → Fin Fo → ℝ) (bias : Option (Fin Fo → ℝ))
    (x : Fin B → Fin N → Fin Fi → ℝ) (sa : Fin B → Fin N → Fin N → ℝ)
    (ew : Option (List ℝ)) :
    (∀ lam : Option ℝ,
      ChebConvAttention.forward 1 W bias Normalization.sym x ([] : Edges N) sa ew lam
        = Except.ok (fun b v o =>
            (∑ f, sa b v v * x b v f * W 0 f o) + biasOut bias o)) ∧
    (∀ (mode : Normalization) (lam : ℝ),
      ChebConvAttention.forward 1 W bias mode x ([] : Edges N) sa ew (some lam)
        = Except.ok (fun b v o =>
            (∑ f, sa b v v * x b v f * W 0 f o) + biasOut bias o)) := by
  have hcore : ∀ (mode : Normalization) (lam : ℝ),
      ChebConvAttention.forwardCore 1 W bias mode x ([] : Edges N) sa ew lam
        = fun b v o => (∑ f, sa b v v * x b v f * W 0 f o) + biasOut bias o := by
    intro mode lam
    funext b v o
    simp only [ChebConvAttention.forwardCore, Nat.le_refl, if_pos]
    rw [attDiagTerm_eq_gate]
    simp [matW]
  constructor
  · intro lam
    simp [ChebConvAttention.forward, hcore]
  · intro mode lam
    simp [ChebConvAttention.forward, hcore]

/-- Logistic sigmoid, the embedding of `torch.sigmoid`. -/
noncomputable def sigmoidR (z : ℝ) : ℝ := 1 / (1 + Real.exp (-z))

/-- Embedding of `F.softmax(S, dim=1)` for a 3-axis tensor of shape
`(B, n, m)`: each entry is exponentiated and normalized by the sum of the
exponentials over axis 1 (the first index after the batch), for fixed
batch element and fixed last index. -/
noncomputable def softmaxDim1 {B n m : ℕ} (S : Fin B → Fin n → Fin m → ℝ) :
    Fin B → Fin n → Fin m → ℝ :=
  fun b i j => Real.exp (S b i j) / ∑ u, Real.exp (S b u j)

/-- Embedding of `SpatialAttention.forward`:
`LHS = (X @ W1) @ W2`, `RHS = (W3 @ X).transpose(-1, -2)`,
`S = Vs @ sigmoid(LHS @ RHS + bs)`, softmax over axis 1.  `X` has shape
`(B, N, F_in, T)`; `bs` is broadcast over the batch axis. -/
noncomputable def SpatialAttention.forward {B N Fc T : ℕ} (W1 : Fin T → ℝ)
    (W2 : Fin Fc → Fin T → ℝ) (W3 : Fin Fc → ℝ) (bs : Fin N → Fin N → ℝ)
    (Vs : Fin N → Fin N → ℝ) (X : Fin B → Fin N → Fin Fc → Fin T → ℝ) :
    Fin B → Fin N → Fin N → ℝ :=
  let LHS : Fin B → Fin N → Fin T → ℝ :=
    fun b n t => ∑ f, (∑ u, X b n f u * W1 u) * W2 f t
  let RHS : Fin B → Fin T → Fin N → ℝ :=
    fun b t n => ∑ f, W3 f * X b n f t
  let S : Fin B → Fin N → Fin N → ℝ :=
    fun b i j => ∑ u, Vs i u *
      sigmoidR ((∑ t, LHS b u t * RHS b t j) + bs u j)
  softmaxDim1 S

/-- Embedding of `TemporalAttention.forward`:
`LHS = (X.permute(0,3,2,1) @ U1) @ U2`, `RHS = U3 @ X`,
`E = Ve @ sigmoid(LHS @ RHS + be)`, softmax over axis 1.  `X` has shape
`(B, N, F_in, T)`; the output has shape `(B, T, T)`. -/
noncomputable def TemporalAttention.forward {B N Fc T : ℕ} (U1 : Fin N → ℝ)
    (U2 : Fin Fc → Fin N → ℝ) (U3 : Fin Fc → ℝ) (be : Fin T → Fin T → ℝ)
    (Ve : Fin T → Fin T → ℝ) (X : Fin B → Fin N → Fin Fc → Fin T → ℝ) :
    Fin B → Fin T → Fin T → ℝ :=
  let LHS : Fin B → Fin T → Fin N → ℝ :=
    fun b t n => ∑ f, (∑ u, X b u f t * U1 u) * U2 f n
  let RHS : Fin B → Fin N → Fin T → ℝ :=
    fun b n t => ∑ f, U3 f * X b n f t
  let E : Fin B → Fin T → Fin T → ℝ :=
    fun b t s => ∑ u, Ve t u *
      sigmoidR ((∑ n, LHS b u n * RHS b n s) + be u s)
  softmaxDim1 E

/-- Softmax over axis 1 sums to 1 along that axis whenever the axis is
nonempty. -/
lemma softmaxDim1_sum_one {B n m : ℕ} (hn : 0 < n)
    (S : Fin B → Fin n → Fin m → ℝ) (b : Fin B) (j : Fin m) :
    ∑ i, softmaxDim1 S b i j = 1 := by
  have hpos : 0 < ∑ u, Real.exp (S b u j) :=
    Finset.sum_pos (fun u _ => Real.exp_pos _)
      ⟨⟨0, hn⟩, Finset.mem_univ _⟩
  simp only [softmaxDim1]
  rw [← Finset.sum_div]
  exact div_self (ne_of_gt hpos)

/-- C5: for every batch element and every fixed destination index, the
spatial attention output sums to 1 over axis 1 (the source-node axis), and
the temporal attention output sums to 1 over axis 1 (the source-timestep
axis): both forwards end in a softmax over axis 1. -/
theorem claim5_attention_rows_sum_one {B N Fc T : ℕ} :
    (∀ (W1 : Fin T → ℝ) (W2 : Fin Fc → Fin T → ℝ) (W3 : Fin Fc → ℝ)
        (bs : Fin N → Fin N → ℝ) (Vs : Fin N → Fin N → ℝ)
        (X : Fin B → Fin N → Fin Fc → Fin T → ℝ) (b : Fin B) (j : Fin N),
      ∑ i, SpatialAttention.forward W1 W2 W3 bs Vs X b i j = 1) ∧
    (∀ (U1 : Fin N → ℝ) (U2 : Fin Fc → Fin N → ℝ) (U3 : Fin Fc → ℝ)
        (be : Fin T → Fin T → ℝ) (Ve : Fin T → Fin T → ℝ)
        (X : Fin B → Fin N → Fin Fc → Fin T → ℝ) (b : Fin B) (j : Fin T),
      ∑ t, TemporalAttention.forward U1 U2 U3 be Ve X b t j = 1) := by
  constructor
  · intro W1 W2 W3 bs Vs X b j
    simp only [SpatialAttention.forward]
    exact softmaxDim1_sum_one j.pos _ b j
  · intro U1 U2 U3 be Ve X b j
    simp only [TemporalAttention.forward]
    exact softmaxDim1_sum_one j.pos _ b j

/-- Rectified linear unit, the embedding of `F.relu`. -/
noncomputable def reluR (z : ℝ) : ℝ := max z 0

/-- Zero-padded access into a `(B, C, H, W)` tensor: position `(i, j)` of
the padded tensor reads `(i - ph, j - pw)` of the original when inside its
bounds and `0` otherwise. -/
noncomputable def xpad {B C H W0 : ℕ} (ph pw : ℕ)
    (x : Fin B → Fin C → Fin H → Fin W0 → ℝ) (b : Fin B) (c : Fin C)
    (i j : ℕ) : ℝ :=
  if h : ph ≤ i ∧ i - ph < H ∧ pw ≤ j ∧ j - pw < W0 then
    x b c ⟨i - ph, h.2.1⟩ ⟨j - pw, h.2.2.2⟩
  else 0

/-- Embedding of `nn.Conv2d` forward (cross-correlation) on a
`(B, Cin, H, W)` input with kernel `(kh, kw)`, stride `(sh, sw)` and zero
padding `(ph, pw)`: output position `(i, j)` contracts the kernel against
the padded input window anchored at `(i * sh, j * sw)` and adds the bias. -/
noncomputable def conv2d {B Cin Cout H W0 : ℕ} (kh kw sh sw ph pw : ℕ)
    (weight : Fin Cout → Fin Cin → ℕ → ℕ → ℝ) (bias : Fin Cout → ℝ)
    (x : Fin B → Fin Cin → Fin H → Fin W0 → ℝ) :
    Fin B → Fin Cout → ℕ → ℕ → ℝ :=
  fun b co i j => bias co + ∑ ci, ∑ di in Finset.range kh,
    ∑ dj in Finset.range kw,
      weight co ci di dj * xpad ph pw x b ci (i * sh + di) (j * sw + dj)

namespace ASTGCNBlock

/-- Embedding of
`X_tilde = matmul(X.reshape(B, N*F, T), E).reshape(B, N, F, T)` of
`ASTGCNBlock.forward`: the reshape only regroups the `(node, feature)`
axes, so entrywise the product mixes timesteps with the temporal attention
matrix. -/
noncomputable def timeReweighted {B N Fc T : ℕ}
    (E : Fin B → Fin T → Fin T → ℝ)
    (X : Fin B → Fin N → Fin Fc → Fin T → ℝ) :
    Fin B → Fin N → Fin Fc → Fin T → ℝ :=
  fun b n f t => ∑ u, X b n f u * E b u t

/-- Embedding of steps (a)-(d) of `ASTGCNBlock.forward` (static graph
branch): temporal attention, time reweighting, spatial attention, then one
attention-Chebyshev convolution per timestep on the same spatial attention
matrix, concatenated over time and rectified.  `lamOf` models the
`LaplacianLambdaMax` transform (an external eigensolver) as a function of
the edge list; under symmetric normalization the block passes no
`lambda_max` and the convolution defaults it to `2`. -/
noncomputable def XhatRelu {B N Fi Fch T : ℕ} (mode : Normalization)
    (lamOf : Edges N → ℝ) (K : ℕ) (W : ℕ → Fin Fi → Fin Fch → ℝ)
    (bias : Option (Fin Fch → ℝ))
    (U1 : Fin N → ℝ) (U2 : Fin Fi → Fin N → ℝ) (U3 : Fin Fi → ℝ)
    (be : Fin T → Fin T → ℝ) (Ve : Fin T → Fin T → ℝ)
    (W1 : Fin T → ℝ) (W2 : Fin Fi → Fin T → ℝ) (W3 : Fin Fi → ℝ)
    (bs : Fin N → Fin N → ℝ) (Vs : Fin N → Fin N → ℝ)
    (ei : Edges N) (X : Fin B → Fin N → Fin Fi → Fin T → ℝ) :
    Fin B → Fin N → Fin Fch → Fin T → ℝ :=
  let E := TemporalAttention.forward U1 U2 U3 be Ve X
  let Xt := timeReweighted E X
  let SA := SpatialAttention.forward W1 W2 W3 bs Vs Xt
  let lam : ℝ := if mode = Normalization.sym then 2 else lamOf ei
  fun b n c t => reluR
    (ChebConvAttention.forwardCore K W bias mode (fun b2 v f => X b2 v f t)
      ei SA none lam b n c)

/-- Embedding of step (e) of `ASTGCNBlock.forward`:
`self._time_convolution(X_hat.permute(0, 2, 1, 3))` with
`nn.Conv2d(nb_chev_filter, nb_time_filter, kernel_size=(1, 3),
stride=(1, time_strides), padding=(0, 1))`. -/
noncomputable def stepE {B N Fi Fch Fo2 T : ℕ} (mode : Normalization)
    (lamOf : Edges N → ℝ) (K : ℕ) (W : ℕ → Fin Fi → Fin Fch → ℝ)
    (bias : Option (Fin Fch → ℝ))
    (U1 : Fin N → ℝ) (U2 : Fin Fi → Fin N → ℝ) (U3 : Fin Fi → ℝ)
    (be : Fin T → Fin T → ℝ) (Ve : Fin T → Fin T → ℝ)
    (W1 : Fin T → ℝ) (W2 : Fin Fi → Fin T → ℝ) (W3 : Fin Fi → ℝ)
    (bs : Fin N → Fin N → ℝ) (Vs : Fin N → Fin N → ℝ)
    (ei : Edges N) (ts : ℕ) (convW : Fin Fo2 → Fin Fch → ℕ → ℕ → ℝ)
    (convB : Fin Fo2 → ℝ) (X : Fin B → Fin N → Fin Fi → Fin T → ℝ) :
    Fin B → Fin Fo2 → ℕ → ℕ → ℝ :=
  conv2d 1 3 1 ts 0 1 convW convB
    (fun b c n t =>
      XhatRelu mode lamOf K W bias U1 U2 U3 be Ve W1 W2 W3 bs Vs ei X b n c t)

end ASTGCNBlock

/-- What the claim states step (e) computes: a temporal convolution of
kernel width 3 along the time axis at stride `ts` (with one-slot zero
padding), applied to a `(B, C, N, T)` tensor, leaving the node axis
untouched. -/
noncomputable def timeConvWindowSpec {B Fch N T Fo2 : ℕ} (ts : ℕ)
    (convW : Fin Fo2 → Fin Fch → ℕ → ℕ → ℝ) (convB : Fin Fo2 → ℝ)
    (Y : Fin B → Fin Fch → Fin N → Fin T → ℝ) :
    Fin B → Fin Fo2 → Fin N → ℕ → ℝ :=
  fun b co n t => convB co + ∑ ci, ∑ d in Finset.range 3,
    convW co ci 0 d *
      (if h : 1 ≤ t * ts + d ∧ t * ts + d - 1 < T then
        Y b ci n ⟨t * ts + d - 1, h.2⟩ else 0)

/-- Padded access of a `(B, C, N, T)` tensor with node padding 0 and time
padding 1 reduces to a pure time-window lookup. -/
lemma xpad_time_window {B C N T : ℕ} (x : Fin B → Fin C → Fin N → Fin T → ℝ)
    (b : Fin B) (c : Fin C) (n : Fin N) (jj : ℕ) :
    xpad 0 1 x b c n.val jj
      = if h : 1 ≤ jj ∧ jj - 1 < T then x b c n ⟨jj - 1, h.2⟩ else 0 := by
  by_cases hc : 1 ≤ jj ∧ jj - 1 < T
  · have hcond : 0 ≤ n.val ∧ n.val - 0 < N ∧ 1 ≤ jj ∧ jj - 1 < T :=
      ⟨Nat.zero_le _, by rw [Nat.sub_zero]; exact n.isLt, hc.1, hc.2⟩
    rw [dif_pos hc, xpad, dif_pos hcond]
    have h1 : (⟨n.val - 0, hcond.2.1⟩ : Fin N) = n := Fin.ext (by simp)
    rw [h1]
  · rw [dif_neg hc, xpad, dif_neg]
    intro hcond
    exact hc ⟨hcond.2.2.1, hcond.2.2.2⟩

/-- C6: in every ASTGCNBlock forward call, step (e) applies the temporal
convolution of kernel width 3 along the time axis and stride equal to the
configured time-compression factor `ts` to the tensor obtained by
concatenating the per-timestep attention-Chebyshev outputs and rectifying,
i.e. it equals the explicit width-3 strided time-window contraction of
that rectified concatenated tensor. -/
theorem claim6_time_convolution {B N Fi Fch Fo2 T : ℕ} (mode : Normalization)
    (lamOf : Edges N → ℝ) (K : ℕ) (W : ℕ → Fin Fi → Fin Fch → ℝ)
    (bias : Option (Fin Fch → ℝ))
    (U1 : Fin N → ℝ) (U2 : Fin Fi → Fin N → ℝ) (U3 : Fin Fi → ℝ)
    (be : Fin T → Fin T → ℝ) (Ve : Fin T → Fin T → ℝ)
    (W1 : Fin T → ℝ) (W2 : Fin Fi → Fin T → ℝ) (W3 : Fin Fi → ℝ)
    (bs : Fin N → Fin N → ℝ) (Vs : Fin N → Fin N → ℝ)
    (ei : Edges N) (ts : ℕ) (convW : Fin Fo2 → Fin Fch → ℕ → ℕ → ℝ)
    (convB : Fin Fo2 → ℝ) (X : Fin B → Fin N → Fin Fi → Fin T → ℝ)
    (b : Fin B) (co : Fin Fo2) (n : Fin N) (t : ℕ) :
    ASTGCNBlock.stepE mode lamOf K W bias U1 U2 U3 be Ve W1 W2 W3 bs Vs ei
        ts convW convB X b co n.val t
      = timeConvWindowSpec ts convW convB
          (fun b2 c n2 t2 =>
            ASTGCNBlock.XhatRelu mode lamOf K W bias U1 U2 U3 be Ve W1 W2 W3
              bs Vs ei X b2 n2 c t2) b co n t := by
  simp only [ASTGCNBlock.stepE, conv2d, timeConvWindowSpec]
  refine congrArg (fun z => convB co + z) ?_
  refine Finset.sum_congr rfl ?_
  intro ci _
  rw [Finset.sum_range_one]
  refine Finset.sum_congr rfl ?_
  intro d _
  refine congrArg (fun z => convW co ci 0 d * z) ?_
  have hidx : n.val * 1 + 0 = n.val := by omega
  rw [hidx]
  exact xpad_time_window
    (fun b2 c n2 t2 =>
      ASTGCNBlock.XhatRelu mode lamOf K W bias U1 U2 U3 be Ve W1 W2 W3
        bs Vs ei X b2 n2 c t2) b ci n (t * ts + d)

/-- Tensor store: the sequence of tensor objects alive in the runtime,
each flattened to its list of scalar entries.  A reference is an index
into the store; allocation appends at the end. -/
abbrev TensorStore := List (List ℝ)

/-- Allocation of a fresh tensor, as performed by every out-of-place torch
operation: append the value and return the new reference. -/
def allocT (s : TensorStore) (v : List ℝ) : TensorStore × ℕ :=
  (s ++ [v], s.length)

/-- In-place mutation of an existing tensor, as performed by the torch
methods with a trailing underscore and by `+=`: overwrite the referenced
cell. -/
def writeT (s : TensorStore) (r : ℕ) (v : List ℝ) : TensorStore :=
  s.set r v

/-- Lifts of the store operations to a `(store, reference)` pair, the
shape every tensor-producing step of the trace has: `allocP` allocates and
makes the fresh tensor current, `allocKeepRef` allocates but keeps the
previous current reference (used when an auxiliary tensor is built while
`out` stays the accumulator), and `writeCur` mutates the current tensor in
place. -/
def allocP (p : TensorStore × ℕ) (v : List ℝ) : TensorStore × ℕ := allocT p.1 v

/-- Allocation that does not change the current reference. -/
def allocKeepRef (p : TensorStore × ℕ) (v : List ℝ) : TensorStore × ℕ :=
  ((allocT p.1 v).1, p.2)

/-- In-place mutation of the current tensor. -/
def writeCur (p : TensorStore × ℕ) (v : List ℝ) : TensorStore × ℕ :=
  (writeT p.1 p.2 v, p.2)

/-- One iteration of the loop `for k in range(2, K)` in the store trace:
three out-of-place tensor constructions (`propagate`, the linear
combination `2 * TAx_2 - TAx_0`, and `out = out + matmul(...)`), the last
of which becomes the new accumulator reference. -/
def chebLoopStep (vals : ℕ → List ℝ) (p : TensorStore × ℕ) (i : ℕ) :
    TensorStore × ℕ :=
  allocP (allocP (allocP p (vals (16 + 3 * i))) (vals (17 + 3 * i)))
    (vals (18 + 3 * i))

/-- Allocation and mutation trace of one `ChebConvAttention.forward` call
over the tensor store, one store operation per tensor-producing source
line, with the stored values `vals i` arbitrary (the frame property below
holds for every choice, so the numeric contents, which the pure embedding
`forwardCore` computes, are irrelevant here).  The caller's tensors are
the contents of the initial store `s0`.  In source order:
the `lambda_max` default tensor (line 119), the two `remove_self_loops`
results (line 78), the two `get_laplacian` results (line 80), the scaled
weights `(2.0 * edge_weight) / lambda_max` (line 87), the IN-PLACE
`masked_fill_` on that freshly scaled tensor (line 88, `writeCur`), the
two `add_self_loops` results (line 90), `Att_norm` (line 130), `torch.eye`
and `TAx_0` (line 132), `out` (line 133), `edge_index_transpose`
(line 134, allocated while `out` stays current), the `K > 1` branch
allocating `TAx_1` and rebinding `out` (lines 135-137), three fresh
tensors per iteration of the Chebyshev loop with `out` rebound to the last
(lines 139-143), and finally the IN-PLACE `out += bias` (line 146,
`writeCur`) on the rebound accumulator when the bias is present. -/
def ChebConvAttention.forwardProg (K : ℕ) (hasBias : Bool)
    (vals : ℕ → List ℝ) (s0 : TensorStore) : TensorStore :=
  let p5 := allocP (allocP (allocP (allocP (allocP (allocP (s0, s0.length)
    (vals 0)) (vals 1)) (vals 2)) (vals 3)) (vals 4)) (vals 5)
  let p6 := writeCur p5 (vals 6)
  let p12 := allocP (allocP (allocP (allocP (allocP (allocP p6 (vals 7))
    (vals 8)) (vals 9)) (vals 10)) (vals 11)) (vals 12)
  let p13 := allocKeepRef p12 (vals 13)
  let st := if 1 < K then allocP (allocP p13 (vals 14)) (vals 15) else p13
  let lp := (List.range (K - 2)).foldl (chebLoopStep vals) st
  (if hasBias then writeCur lp (vals (16 + 3 * (K - 2))) else lp).1

/-- Store invariant relative to an initial store: every initially
allocated cell reads back unchanged, the store only grew, and the current
reference points past the initial segment. -/
def StoreInv (s0 : TensorStore) (p : TensorStore × ℕ) : Prop :=
  (∀ r, r < s0.length → p.1[r]? = s0[r]?) ∧
    s0.length ≤ p.1.length ∧ s0.length ≤ p.2

/-- Allocation preserves the initial segment and returns a fresh
reference. -/
lemma allocP_inv {s0 : TensorStore} {p : TensorStore × ℕ} (v : List ℝ)
    (h : StoreInv s0 p) : StoreInv s0 (allocP p v) := by
  obtain ⟨hr, hl, _⟩ := h
  refine ⟨?_, ?_, ?_⟩
  · intro r hrlt
    have hlt : r < p.1.length := lt_of_lt_of_le hrlt hl
    exact (List.getElem?_append_left hlt).trans (hr r hrlt)
  · simp only [allocP, allocT, List.length_append]
    omega
  · exact hl

/-- Allocation keeping the current reference preserves the invariant. -/
lemma allocKeepRef_inv {s0 : TensorStore} {p : TensorStore × ℕ}
    (v : List ℝ) (h : StoreInv s0 p) : StoreInv s0 (allocKeepRef p v) := by
  obtain ⟨hr, hl, href⟩ := h
  refine ⟨?_, ?_, href⟩
  · intro r hrlt
    have hlt : r < p.1.length := lt_of_lt_of_le hrlt hl
    exact (List.getElem?_append_left hlt).trans (hr r hrlt)
  · simp only [allocKeepRef, allocT, List.length_append]
    omega

/-- In-place mutation at the current (freshly allocated) reference
preserves the initial segment. -/
lemma writeCur_inv {s0 : TensorStore} {p : TensorStore × ℕ} (v : List ℝ)
    (h : StoreInv s0 p) : StoreInv s0 (writeCur p v) := by
  obtain ⟨hr, hl, href⟩ := h
  refine ⟨?_, ?_, href⟩
  · intro r hrlt
    rw [writeCur, writeT, List.getElem?_set_ne (by omega)]
    exact hr r hrlt
  · simpa [writeCur, writeT] using hl

/-- The Chebyshev loop of the trace preserves the store invariant. -/
lemma chebLoop_inv (s0 : TensorStore) (vals : ℕ → List ℝ) :
    ∀ (l : List ℕ) (p : TensorStore × ℕ), StoreInv s0 p →
      StoreInv s0 (l.foldl (chebLoopStep vals) p) := by
  intro l
  induction l with
  | nil => intro p h; exact h
  | cons i tl ih =>
      intro p h
      rw [List.foldl_cons]
      exact ih _ (allocP_inv _ (allocP_inv _ (allocP_inv _ h)))

/-- C10: every `ChebConvAttention.forward` call leaves all caller-supplied
tensors unchanged: in the store trace of the call, every cell allocated
before the call reads back identically afterwards, because the only
in-place mutations (`masked_fill_` of infinities inside `__norm__` and the
final `+= bias`) target tensors freshly constructed during the call. -/
theorem claim10_caller_tensors_unchanged (K : ℕ) (hasBias : Bool)
    (vals : ℕ → List ℝ) (s0 : TensorStore) (r : ℕ) (hr : r < s0.length) :
    (ChebConvAttention.forwardProg K hasBias vals s0)[r]? = s0[r]? := by
  have h0 : StoreInv s0 (s0, s0.length) :=
    ⟨fun _ _ => rfl, Nat.le_refl _, Nat.le_refl _⟩
  have h13 := allocKeepRef_inv (vals 13) (allocP_inv (vals 12)
    (allocP_inv (vals 11) (allocP_inv (vals 10) (allocP_inv (vals 9)
    (allocP_inv (vals 8) (allocP_inv (vals 7) (writeCur_inv (vals 6)
    (allocP_inv (vals 5) (allocP_inv (vals 4) (allocP_inv (vals 3)
    (allocP_inv (vals 2) (allocP_inv (vals 1)
    (allocP_inv (vals 0) h0)))))))))))))
  simp only [ChebConvAttention.forwardProg]
  by_cases hK : 1 < K
  · rw [if_pos hK]
    have hlp := chebLoop_inv s0 vals (List.range (K - 2)) _
      (allocP_inv (vals 15) (allocP_inv (vals 14) h13))
    cases hasBias with
    | false =>
        rw [if_neg (by decide)]
        exact hlp.1 r hr
    | true =>
        rw [if_pos (by decide)]
        exact (writeCur_inv _ hlp).1 r hr
  · rw [if_neg hK]
    have hlp := chebLoop_inv s0 vals (List.range (K - 2)) _ h13
    cases hasBias with
    | false =>
        rw [if_neg (by decide)]
        exact hlp.1 r hr
    | true =>
        rw [if_pos (by decide)]
        exact (writeCur_inv _ hlp).1 r hr

/-- Witness for the frame property at a concrete instance: a caller store
holding one tensor is read back unchanged after the trace of an order-3
biased call. -/
theorem claim10_caller_tensors_unchanged_witness :
    0 < ([([] : List ℝ)] : TensorStore).length ∧
    (ChebConvAttention.forwardProg 3 true (fun _ => [])
        ([([] : List ℝ)] : TensorStore))[0]?
      = ([([] : List ℝ)] : TensorStore)[0]? :=
  ⟨by decide, claim10_caller_tensors_unchanged 3 true (fun _ => [])
    ([([] : List ℝ)] : TensorStore) 0 (by decide)⟩

end NFS
